import Mathlib

/-!
Verification of the premiere-hunter content-matching and asset-extraction
engine (src/main.rs), as a shallow embedding.

Strings are modelled as `List Char` (Rust `String` is UTF-8; byte lengths
are computed with `Char.utf8Size`, so Rust's byte-based `str::len`,
`str::find` positions and slice indices are represented exactly).
File I/O is modelled by passing the decoded content explicitly; a content
source that may fail to be read is an `Except Unit _` value.
-/

/-- Convert a Lean string literal to the `List Char` model. -/
def toL (s : String) : List Char := s.toList

/-- Rust `char`-wise lowercasing as used by `str::to_lowercase`, modelled on
the ASCII and Latin-1 ranges (the simple one-to-one Unicode lowercase map
on those ranges: `A`-`Z` and `À`-`Þ` except `×` shift by 32). -/
def rustLowerChar (c : Char) : Char :=
  if 'A' ≤ c ∧ c ≤ 'Z' then Char.ofNat (c.toNat + 32)
  else if 0xC0 ≤ c.toNat ∧ c.toNat ≤ 0xDE ∧ c.toNat ≠ 0xD7 then Char.ofNat (c.toNat + 32)
  else c

/-- Rust `str::to_ascii_lowercase`, `char`-wise. -/
def asciiLowerChar (c : Char) : Char :=
  if 'A' ≤ c ∧ c ≤ 'Z' then Char.ofNat (c.toNat + 32) else c

/-- Model of Rust `str::to_lowercase`. -/
def lowerStr (s : List Char) : List Char := s.map rustLowerChar

/-- Model of Rust `str::to_ascii_lowercase`. -/
def asciiLowerStr (s : List Char) : List Char := s.map asciiLowerChar

/-- Rust `str::len`: the UTF-8 byte length. -/
def utf8Len (s : List Char) : Nat := (s.map Char.utf8Size).sum

/-- `combined.chars().rev().take(n).collect::<String>().chars().rev().collect()`:
the last `n` characters of a string. -/
def takeLast (n : Nat) (l : List Char) : List Char := (l.reverse.take n).reverse

/-- The carry-over recomputation after a non-matching line
(src/main.rs lines 120-132 and 201-213). -/
def nextOverlap (searchLen : Nat) (combined : List Char) : List Char :=
  if utf8Len combined ≥ searchLen ∧ 0 < searchLen then takeLast (searchLen - 1) combined
  else combined

/-- First character index at which `needle` occurs in `hay`
(`str::find` / `str::contains` semantics at character granularity; for valid
UTF-8 a byte-level first match always starts on a character boundary). -/
def findCharIdx (hay needle : List Char) : Option Nat :=
  (List.range (hay.length + 1)).find? (fun i => needle.isPrefixOf (hay.drop i))

/-- The per-line loop of `file_contains_case_insensitive`
(src/main.rs lines 112-133): each line is prepended with the carry-over and
the case-folded combined text is tested for the case-folded needle. -/
def containsLoop (searchLower : List Char) (searchLen : Nat)
    (overlap : List Char) : List (List Char) → Bool
  | [] => false
  | line :: rest =>
    let combined := overlap ++ line
    if (findCharIdx (lowerStr combined) searchLower).isSome then true
    else containsLoop searchLower searchLen (nextOverlap searchLen combined) rest

/-- `file_contains_case_insensitive` on the decoded line stream
(src/main.rs lines 106-135): `search_lower = search_text.to_lowercase()`,
`search_len = search_text.len()` (bytes). -/
def file_contains (lines : List (List Char)) (searchText : List Char) : Bool :=
  containsLoop (lowerStr searchText) (utf8Len searchText) [] lines

-- Basic facts ---------------------------------------------------------------

theorem takeLast_eq_drop (n : Nat) (l : List Char) :
    takeLast n l = l.drop (l.length - n) := by
  rw [takeLast, List.take_reverse, List.reverse_reverse]

theorem takeLast_suffix (n : Nat) (l : List Char) : takeLast n l <:+ l := by
  rw [takeLast_eq_drop]; exact List.drop_suffix _ _

theorem takeLast_length (n : Nat) (l : List Char) :
    (takeLast n l).length = min n l.length := by
  rw [takeLast_eq_drop, List.length_drop]; omega

theorem utf8Len_ge_length (s : List Char) : s.length ≤ utf8Len s := by
  induction s with
  | nil => simp [utf8Len]
  | cons c cs ih =>
    have hc : 0 < c.utf8Size := Char.utf8Size_pos c
    simp only [utf8Len, List.map_cons, List.sum_cons, List.length_cons] at *
    omega

theorem findCharIdx_isSome_iff (hay needle : List Char) :
    (findCharIdx hay needle).isSome = true ↔ needle <:+: hay := by
  rw [findCharIdx, List.find?_isSome]
  constructor
  · rintro ⟨i, _, hp⟩
    have hpre : needle <+: hay.drop i := by
      simpa using List.isPrefixOf_iff_prefix.mp (by simpa using hp)
    obtain ⟨t, ht⟩ := hpre
    exact ⟨hay.take i, t, by rw [List.append_assoc, ht, List.take_append_drop]⟩
  · rintro ⟨s, t, hst⟩
    have hlen : s.length ≤ hay.length := by
      rw [← hst]; simp
    refine ⟨s.length, by simp only [List.mem_range]; omega, ?_⟩
    have hdrop : hay.drop s.length = needle ++ t := by
      rw [← hst, List.append_assoc, List.drop_left]
    simp [List.isPrefixOf_iff_prefix, hdrop]

theorem nextOverlap_suffix (n : Nat) (c : List Char) : nextOverlap n c <:+ c := by
  unfold nextOverlap
  split
  · exact takeLast_suffix _ _
  · exact List.suffix_refl _

/-- If an occurrence inside `A ++ B` fits within the first `A.length`
positions, it already occurs in `A`. -/
theorem infix_left_of_fits (s m t A B : List Char) (h : s ++ m ++ t = A ++ B)
    (hle : s.length + m.length ≤ A.length) : m <:+: A := by
  have hs : s.length ≤ A.length := by omega
  have hA : A = s ++ (m.take (A.length - s.length) ++
      t.take (A.length - s.length - m.length)) := by
    have h1 : (A ++ B).take A.length = A := List.take_left A B
    rw [List.append_assoc] at h
    rw [← h, List.take_append_eq_append_take, List.take_of_length_le hs,
      List.take_append_eq_append_take] at h1
    exact h1.symm
  rw [List.take_of_length_le (by omega)] at hA
  exact ⟨s, t.take (A.length - s.length - m.length), by rw [List.append_assoc, ← hA]⟩

/-- An occurrence inside `A ++ B` that starts at position `≥ d` survives
dropping the first `d` positions of `A`. -/
theorem infix_drop_left (d : Nat) (s m t A B : List Char) (h : s ++ m ++ t = A ++ B)
    (hds : d ≤ s.length) (hdA : d ≤ A.length) : m <:+: (A.drop d ++ B) := by
  have hL : (s ++ (m ++ t)).drop d = s.drop d ++ (m ++ t) := by
    rw [List.drop_append_eq_append_drop, Nat.sub_eq_zero_of_le hds, List.drop_zero]
  have hR : (A ++ B).drop d = A.drop d ++ B := by
    rw [List.drop_append_eq_append_drop, Nat.sub_eq_zero_of_le hdA, List.drop_zero]
  have h2 : s.drop d ++ (m ++ t) = A.drop d ++ B := by
    rw [← hL, ← hR, ← List.append_assoc, h]
  exact ⟨s.drop d, t, by rw [List.append_assoc, h2]⟩

theorem lowerStr_append (a b : List Char) :
    lowerStr (a ++ b) = lowerStr a ++ lowerStr b := List.map_append _ _ _

theorem lowerStr_drop (n : Nat) (l : List Char) :
    lowerStr (l.drop n) = (lowerStr l).drop n := by
  simp [lowerStr, List.map_drop]

theorem map_suffix_of_suffix (f : Char → Char) {l₁ l₂ : List Char} (h : l₁ <:+ l₂) :
    l₁.map f <:+ l₂.map f := by
  obtain ⟨p, hp⟩ := h
  exact ⟨p.map f, by rw [← List.map_append, hp]⟩

/-- Soundness of the carry-over loop: a reported match is a genuine
case-folded substring of the remaining logical content. -/
theorem containsLoop_sound (searchLower : List Char) (searchLen : Nat) :
    ∀ (lines : List (List Char)) (overlap : List Char),
      containsLoop searchLower searchLen overlap lines = true →
      searchLower <:+: lowerStr (overlap ++ lines.flatten) := by
  intro lines
  induction lines with
  | nil => intro o h; simp [containsLoop] at h
  | cons line rest ih =>
    intro o h
    simp only [containsLoop] at h
    by_cases hf : (findCharIdx (lowerStr (o ++ line)) searchLower).isSome = true
    · have hl : searchLower <:+: lowerStr (o ++ line) :=
        (findCharIdx_isSome_iff _ _).mp hf
      have hpre : lowerStr (o ++ line) <+: lowerStr (o ++ List.flatten (line :: rest)) :=
        ⟨lowerStr rest.flatten, by
          rw [← lowerStr_append, List.flatten_cons, List.append_assoc]⟩
      exact hl.trans hpre.isInfix
    · rw [if_neg (by simpa using hf)] at h
      have hrec := ih (nextOverlap searchLen (o ++ line)) h
      have hsfx : nextOverlap searchLen (o ++ line) ++ rest.flatten <:+
          (o ++ line) ++ rest.flatten := by
        obtain ⟨p, hp⟩ := nextOverlap_suffix searchLen (o ++ line)
        exact ⟨p, by rw [← List.append_assoc, hp]⟩
      have : lowerStr (nextOverlap searchLen (o ++ line) ++ rest.flatten) <:+
          lowerStr ((o ++ line) ++ rest.flatten) := map_suffix_of_suffix _ hsfx
      have h2 : searchLower <:+: lowerStr ((o ++ line) ++ rest.flatten) :=
        hrec.trans this.isInfix
      rw [List.flatten_cons, ← List.append_assoc]
      exact h2

/-- Completeness of the carry-over loop: because the carry-over keeps the
last `search_len - 1` characters (with `search_len` the needle's byte
length, an upper bound on its character length), any case-folded occurrence
in the remaining logical content is eventually detected. -/
theorem containsLoop_complete (needle : List Char) (hne : needle ≠ []) :
    ∀ (lines : List (List Char)) (overlap : List Char),
      lowerStr needle <:+: lowerStr (overlap ++ lines.flatten) →
      ¬ lowerStr needle <:+: lowerStr overlap →
      containsLoop (lowerStr needle) (utf8Len needle) overlap lines = true := by
  intro lines
  induction lines with
  | nil =>
    intro o h hno
    rw [List.flatten_nil, List.append_nil] at h
    exact absurd h hno
  | cons line rest ih =>
    intro o h hno
    by_cases hf : (findCharIdx (lowerStr (o ++ line)) (lowerStr needle)).isSome = true
    · simp only [containsLoop]
      rw [if_pos (by simpa using hf)]
    · have hnotin : ¬ lowerStr needle <:+: lowerStr (o ++ line) := by
        rw [← findCharIdx_isSome_iff]
        simpa using hf
      simp only [containsLoop]
      rw [if_neg (by simpa using hf)]
      apply ih
      · -- the occurrence survives into the carried-over state
        rw [List.flatten_cons, ← List.append_assoc, lowerStr_append] at h
        obtain ⟨s, t, hst⟩ := h
        set A := lowerStr (o ++ line) with hAdef
        set B := lowerStr rest.flatten with hBdef
        have hmlen1 : 1 ≤ (lowerStr needle).length := by
          rcases needle with _ | ⟨c, cs⟩
          · exact absurd rfl hne
          · simp [lowerStr]
        have hmlen2 : (lowerStr needle).length ≤ utf8Len needle := by
          have := utf8Len_ge_length needle
          simpa [lowerStr] using this
        have hAlen : A.length = (o ++ line).length := by simp [hAdef, lowerStr]
        have hbig : A.length < s.length + (lowerStr needle).length := by
          by_contra hc
          exact hnotin (infix_left_of_fits s (lowerStr needle) t A B hst (by omega))
        unfold nextOverlap
        by_cases hcond : utf8Len (o ++ line) ≥ utf8Len needle ∧ 0 < utf8Len needle
        · rw [if_pos hcond]
          have hlow : lowerStr (takeLast (utf8Len needle - 1) (o ++ line)) =
              A.drop (A.length - (utf8Len needle - 1)) := by
            rw [takeLast_eq_drop, lowerStr_drop, hAdef, hAlen]
          rw [lowerStr_append, hlow]
          exact infix_drop_left _ s _ t A B hst (by omega) (by omega)
        · rw [if_neg hcond]
          rw [lowerStr_append]
          exact ⟨s, t, hst⟩
      · intro hcontra
        exact hnotin (hcontra.trans
          (map_suffix_of_suffix _ (nextOverlap_suffix _ _)).isInfix)

/-- C1: for every non-empty search term and every decoded line stream,
`file_contains_case_insensitive` answers `true` exactly when the
case-folded needle is a substring of the case-folded logical content
(all lines concatenated, line breaks ignored); in particular any line
splitting of a matching text still matches, thanks to the carry-over of the
last `search_len - 1` characters. -/
theorem file_contains_iff_substring (lines : List (List Char)) (needle : List Char)
    (hne : needle ≠ []) :
    file_contains lines needle = true ↔
      lowerStr needle <:+: lowerStr lines.flatten := by
  constructor
  · intro h
    have := containsLoop_sound (lowerStr needle) (utf8Len needle) lines [] h
    simpa using this
  · intro h
    apply containsLoop_complete needle hne lines []
    · simpa using h
    · intro hcontra
      have hnil : lowerStr needle = [] := by
        have : lowerStr ([] : List Char) = [] := rfl
        rw [this] at hcontra
        obtain ⟨s, t, hst⟩ := hcontra
        rcases List.append_eq_nil.mp (List.append_eq_nil.mp hst).1 with ⟨_, h2⟩
        exact h2
      rcases needle with _ | ⟨c, cs⟩
      · exact hne rfl
      · simp [lowerStr] at hnil

/-- Witness for C1 at a concrete input: the match `bar` spans the break
between `foo BA` and `R baz`. -/
theorem file_contains_iff_substring_witness :
    file_contains [toL "foo BA", toL "R baz"] (toL "BAR") = true :=
  (file_contains_iff_substring [toL "foo BA", toL "R baz"] (toL "BAR")
    (by decide)).mpr (by decide)

-- Snippet extraction ---------------------------------------------------------

/-- The byte offset of each character of a string, in order
(Rust `str::char_indices`, first components). -/
def charOffsets (l : List Char) : List Nat :=
  (List.range l.length).map (fun i => utf8Len (l.take i))

/-- Rust byte slicing `&combined[s..e]` at character granularity: the
characters whose start offset lies in `[s, e)`.  Used only with `s` and `e`
produced by the boundary adjustment, so it agrees with Rust slicing. -/
def sliceBytes (l : List Char) (s e : Nat) : List Char :=
  ((l.zip (charOffsets l)).filter (fun p => s ≤ p.2 ∧ p.2 < e)).map Prod.fst

/-- The per-line loop of `file_snippet_case_insensitive`
(src/main.rs lines 174-214): ASCII-lowercased search, byte-window
computation, boundary adjustment with
`char_indices().take_while(i <= target).last()`, tab compaction and
truncation markers. -/
def snippetLoop (needleLower : List Char) (searchLen half : Nat)
    (overlap : List Char) : List (List Char) → Option (List Char)
  | [] => none
  | line :: rest =>
    let combined := overlap ++ line
    let combinedLower := asciiLowerStr combined
    match findCharIdx combinedLower needleLower with
    | some ci =>
      let pos := utf8Len (combinedLower.take ci)
      let matchEnd := pos + searchLen
      let start0 := pos - half
      let end0 := min (utf8Len combined) (matchEnd + half)
      let start1 := ((charOffsets combined).takeWhile (fun i => i ≤ start0)).getLast?.getD 0
      let end1 := ((charOffsets combined).takeWhile (fun i => i ≤ end0)).getLast?.getD
        (utf8Len combined)
      let snip := (sliceBytes combined start1 end1).map
        (fun c => if c = '\t' then ' ' else c)
      let pre := if 0 < start1 then toL "..." else []
      let suf := if end1 < utf8Len combined then toL "..." else []
      some (pre ++ snip ++ suf)
    | none => snippetLoop needleLower searchLen half (nextOverlap searchLen combined) rest

/-- `file_snippet_case_insensitive` on the decoded line stream
(src/main.rs lines 167-217): `needle_lower = search_text.to_ascii_lowercase()`,
`search_len = needle_lower.len()`, `total_chars` defaulted to 120 when the
requested budget is `0`, `half = total_chars / 2`. -/
def file_snippet (lines : List (List Char)) (searchText : List Char)
    (snippetChars : Nat) : Option (List Char) :=
  let needleLower := asciiLowerStr searchText
  let searchLen := utf8Len needleLower
  let totalChars := if snippetChars = 0 then 120 else snippetChars
  snippetLoop needleLower searchLen (totalChars / 2) [] lines

/-- C2 (failing evaluation): with a budget of 4 characters, the snippet body
for needle `xx` in `aaxxaa` is `aaxxa` — 5 characters, more than the budget —
and `...` is appended even though the context window extends to the very end
of the combined text; likewise a whole-string match of `hello` is returned
as `hell...`: the boundary adjustment can never select the end-of-string
offset, so the final character is always cut and `...` always appended. -/
theorem file_snippet_budget_and_marker_bug :
    file_snippet [toL "aaxxaa"] (toL "xx") 4 = some (toL "aaxxa...") ∧
    file_snippet [toL "hello"] (toL "hello") 120 = some (toL "hell...") := by
  constructor
  · decide
  · decide

-- Asset path normalization ----------------------------------------------------

/-- Rust `str::trim` (whitespace at both ends removed). -/
def trim (s : List Char) : List Char :=
  ((s.dropWhile Char.isWhitespace).reverse.dropWhile Char.isWhitespace).reverse

/-- Scanner for Rust `str::replace(pat, rep)`: leftmost non-overlapping
occurrences of `pat` are replaced by `rep`; the replacement text is not
rescanned.  The `fuel` argument (always at least the length of the
remaining text, each step consumes at least one character) makes the
recursion structural so that the definition evaluates by reduction. -/
def replaceFuel (pat rep : List Char) : Nat → List Char → List Char
  | 0, s => s
  | fuel + 1, s =>
    match s with
    | [] => []
    | c :: rest =>
      if pat.isPrefixOf (c :: rest) ∧ pat ≠ [] then
        rep ++ replaceFuel pat rep fuel (rest.drop (pat.length - 1))
      else
        c :: replaceFuel pat rep fuel rest

/-- Rust `str::replace(pat, rep)`. -/
def replaceList (pat rep s : List Char) : List Char :=
  replaceFuel pat rep s.length s

/-- `xml_unescape` (src/main.rs lines 228-234): the five chained `replace`
calls, applied in source order. -/
def xml_unescape (s : List Char) : List Char :=
  replaceList (toL "&gt;") (toL ">")
    (replaceList (toL "&lt;") (toL "<")
      (replaceList (toL "&apos;") (toL "'")
        (replaceList (toL "&quot;") (toL "\"")
          (replaceList (toL "&amp;") (toL "&") s))))

/-- `normalize_asset_path` (src/main.rs lines 236-246): trim, strip a
case-insensitive `file:///` or `file://` prefix, turn `/` into `\`, then
XML-unescape.  The Rust code strips `v[8..]`/`v[7..]` by bytes after a check
on `v.to_lowercase()`; a string whose lowercasing begins with the ASCII text
`file:///` begins with 8 one-byte characters, so dropping 8 characters is
the same slice. -/
def normalize_asset_path (raw : List Char) : List Char :=
  let v := trim raw
  let v :=
    if (toL "file:///").isPrefixOf (lowerStr v) then v.drop 8
    else if (toL "file://").isPrefixOf (lowerStr v) then v.drop 7
    else v
  let v := v.map (fun c => if c = '/' then '\\' else c)
  xml_unescape v

/-- C4 counterexample: `normalize_asset_path` is not idempotent, because
XML-unescaping is applied on every pass: `&amp;amp;` normalizes to `&amp;`,
which normalizes again to `&`. -/
theorem normalize_asset_path_not_idempotent :
    normalize_asset_path (normalize_asset_path (toL "&amp;amp;")) ≠
      normalize_asset_path (toL "&amp;amp;") := by
  decide

theorem replaceFuel_no_occurrence (pat rep : List Char) :
    ∀ (fuel : Nat) (s : List Char), ¬ pat <:+: s →
      replaceFuel pat rep fuel s = s := by
  intro fuel
  induction fuel with
  | zero => intro s _; rfl
  | succ n ih =>
    intro s hno
    match s with
    | [] => rfl
    | c :: rest =>
      have hnp : ¬ (pat.isPrefixOf (c :: rest) = true ∧ pat ≠ []) := by
        rintro ⟨h1, _⟩
        obtain ⟨u, hu⟩ := List.isPrefixOf_iff_prefix.mp h1
        exact hno ⟨[], u, by simpa using hu⟩
      have h1 : ¬ pat <:+: rest := fun hc =>
        hno (hc.trans (List.suffix_cons c rest).isInfix)
      rw [replaceFuel, if_neg hnp, ih rest h1]

theorem replaceList_no_occurrence (pat rep : List Char) (s : List Char)
    (hno : ¬ pat <:+: s) : replaceList pat rep s = s :=
  replaceFuel_no_occurrence pat rep s.length s hno

theorem map_slash_id (t : List Char) (h : '/' ∉ t) :
    t.map (fun c => if c = '/' then '\\' else c) = t := by
  induction t with
  | nil => rfl
  | cons c cs ih =>
    simp only [List.mem_cons, not_or] at h
    rw [List.map_cons, if_neg (fun hc => h.1 hc.symm), ih h.2]

/-- A string that is trim-stable, carries no case-insensitive `file://`
prefix, no forward slash and no XML entity sequence is a fixed point of
`normalize_asset_path`. -/
theorem normalize_asset_path_fixed (t : List Char)
    (h1 : trim t = t)
    (h2 : ¬ (toL "file://").isPrefixOf (lowerStr t) = true)
    (h3 : '/' ∉ t)
    (h4 : ¬ (toL "&amp;") <:+: t)
    (h5 : ¬ (toL "&quot;") <:+: t)
    (h6 : ¬ (toL "&apos;") <:+: t)
    (h7 : ¬ (toL "&lt;") <:+: t)
    (h8 : ¬ (toL "&gt;") <:+: t) :
    normalize_asset_path t = t := by
  have h2' : ¬ (toL "file:///").isPrefixOf (lowerStr t) = true := by
    intro hc
    apply h2
    exact List.isPrefixOf_iff_prefix.mpr
      ((by decide : (toL "file://") <+: (toL "file:///")).trans
        (List.isPrefixOf_iff_prefix.mp hc))
  simp only [normalize_asset_path, h1]
  rw [if_neg h2', if_neg h2, map_slash_id t h3]
  simp only [xml_unescape]
  rw [replaceList_no_occurrence _ _ _ h4, replaceList_no_occurrence _ _ _ h5,
    replaceList_no_occurrence _ _ _ h6, replaceList_no_occurrence _ _ _ h7,
    replaceList_no_occurrence _ _ _ h8]

/-- C4 (amended): `normalize_asset_path` is idempotent on every input whose
normalized form is trim-stable, carries no case-insensitive `file://`
prefix, contains no forward slash and contains none of the five XML entity
sequences; the counterexample `&amp;amp;` shows the entity condition is
needed, because XML-unescaping runs again on every pass. -/
theorem normalize_asset_path_idempotent_of_stable (raw : List Char)
    (h1 : trim (normalize_asset_path raw) = normalize_asset_path raw)
    (h2 : ¬ (toL "file://").isPrefixOf (lowerStr (normalize_asset_path raw)) = true)
    (h3 : '/' ∉ normalize_asset_path raw)
    (h4 : ¬ (toL "&amp;") <:+: normalize_asset_path raw)
    (h5 : ¬ (toL "&quot;") <:+: normalize_asset_path raw)
    (h6 : ¬ (toL "&apos;") <:+: normalize_asset_path raw)
    (h7 : ¬ (toL "&lt;") <:+: normalize_asset_path raw)
    (h8 : ¬ (toL "&gt;") <:+: normalize_asset_path raw) :
    normalize_asset_path (normalize_asset_path raw) = normalize_asset_path raw :=
  normalize_asset_path_fixed _ h1 h2 h3 h4 h5 h6 h7 h8

/-- Witness for the amended C4 at a concrete input. -/
theorem normalize_asset_path_idempotent_witness :
    normalize_asset_path (normalize_asset_path (toL " file:///C:/Media/clip 1.mp4 ")) =
      normalize_asset_path (toL " file:///C:/Media/clip 1.mp4 ") :=
  normalize_asset_path_idempotent_of_stable (toL " file:///C:/Media/clip 1.mp4 ")
    (by decide) (by decide) (by decide) (by decide) (by decide) (by decide)
    (by decide) (by decide)

-- XML asset extraction --------------------------------------------------------

/-- The final path component: the text after the last path separator
(Windows `Path` semantics, separators `\` and `/`; the `.`/`..` special
components do not occur in the inputs considered). -/
def lastComponent (s : List Char) : List Char :=
  (s.reverse.takeWhile (fun c => ¬ (c = '\\' ∨ c = '/'))).reverse

/-- Rust `Path::extension`: the text after the last `.` of the final
component; `none` when there is no `.` or when the only `.` is leading
(hidden-file rule). -/
def extension (s : List Char) : Option (List Char) :=
  let f := lastComponent s
  if '.' ∈ f then
    let ext := (f.reverse.takeWhile (fun c => c ≠ '.')).reverse
    if f.length = ext.length + 1 ∧ f.take 1 = ['.'] then none
    else some ext
  else none

/-- The fixed asset extension allow-list (src/main.rs lines 277-282). -/
def asset_exts : List (List Char) :=
  [toL "mp4", toL "mov", toL "mxf", toL "mts", toL "m2ts", toL "avi",
   toL "mkv", toL "wmv", toL "m4v", toL "3gp",
   toL "wav", toL "mp3", toL "aac", toL "m4a", toL "aif", toL "aiff",
   toL "flac", toL "ogg",
   toL "png", toL "jpg", toL "jpeg", toL "tif", toL "tiff", toL "bmp",
   toL "gif", toL "psd", toL "ai", toL "svg", toL "dng", toL "cr2",
   toL "nef", toL "arw",
   toL "prfpset", toL "mogrt"]

/-- `is_path_name` (src/main.rs lines 290-292): recognized path-bearing
tag/attribute names, compared ASCII-case-insensitively. -/
def is_path_name (n : List Char) : Bool :=
  decide (asciiLowerStr n ∈
    [toL "absolutepath", toL "filepath", toL "path",
     toL "relativepath", toL "relpath"])

/-- XML events as delivered by the pull parser (`quick_xml::events::Event`).
Attribute and text payloads are carried already entity-unescaped, as
produced by `unescape_value`/`unescape`; events the code ignores
(comments, declarations, CDATA, processing instructions) are `other`. -/
inductive XmlEvent where
  | start (name : List Char) (attrs : List (List Char × List Char))
  | emptyTag (name : List Char) (attrs : List (List Char × List Char))
  | text (s : List Char)
  | endTag
  | other
deriving DecidableEq

/-- One step of the event stream: either a well-formed event or an
unrecoverable parse error returned by `read_event_into`. -/
inductive RawEvent where
  | ev (e : XmlEvent)
  | parseErr
deriving DecidableEq

/-- The extractor's loop state: the `want_text` flag, the `seen` key set
(modelled as the list of inserted keys) and the accumulated assets. -/
structure ExtractState where
  wantText : Bool
  seen : List (List Char)
  assets : List (List Char)
deriving DecidableEq

def initialExtractState : ExtractState := ⟨false, [], []⟩

/-- Candidate processing (src/main.rs lines 307-314, 326-334, 342-349):
normalize, require an allow-listed extension, deduplicate on the
case-folded normalized path, keep the first occurrence. -/
def considerCandidate (st : ExtractState) (val : List Char) : ExtractState :=
  let norm := normalize_asset_path val
  match extension norm with
  | some ext =>
    if asciiLowerStr ext ∈ asset_exts ∧ lowerStr norm ∉ st.seen then
      { st with seen := lowerStr norm :: st.seen, assets := st.assets ++ [norm] }
    else st
  | none => st

def processAttrs : ExtractState → List (List Char × List Char) → ExtractState
  | st, [] => st
  | st, a :: rest =>
    processAttrs (if is_path_name a.1 then considerCandidate st a.2 else st) rest

/-- One parser event (src/main.rs lines 294-359). -/
def processEvent (st : ExtractState) : XmlEvent → ExtractState
  | .start name attrs =>
    let st := if is_path_name name then { st with wantText := true } else st
    processAttrs st attrs
  | .emptyTag _ attrs =>
    let st := processAttrs st attrs
    { st with wantText := false }
  | .text s => if st.wantText then considerCandidate st s else st
  | .endTag => { st with wantText := false }
  | .other => st

/-- The event loop: it stops at the end of the stream or at the first
unrecoverable parse error (`Err(_) => break`). -/
def runRaw (st : ExtractState) : List RawEvent → ExtractState
  | [] => st
  | .ev e :: rest => runRaw (processEvent st e) rest
  | .parseErr :: _ => st

/-- Rust `Vec<String>::sort` order: lexicographic on code points, which for
UTF-8 strings coincides with the byte order Rust compares by. -/
def lexLe : List Char → List Char → Bool
  | [], _ => true
  | _ :: _, [] => false
  | a :: as, b :: bs =>
    if a < b then true
    else if b < a then false
    else lexLe as bs

/-- `extract_assets_from_prproj` from the parsed event stream onwards
(src/main.rs lines 274-364): run the loop, then sort the accumulated
assets. -/
def extract_assets_events (events : List RawEvent) : List (List Char) :=
  List.insertionSort (fun a b => lexLe a b = true)
    (runRaw initialExtractState events).assets

-- Size gate and per-file entry points -----------------------------------------

/-- The size gate shared by the three engine entry points
(src/main.rs lines 85-90, 146-151, 250-255): strict comparison of the
on-disk size against the optional byte limit. -/
def exceedsLimit (diskSize : Nat) (maxSize : Option Nat) : Bool :=
  match maxSize with
  | some m => decide (m < diskSize)
  | none => false

/-- `file_contains_case_insensitive` with the size gate.  The decoded
content source (which may itself fail, modelling an unreadable or
undecodable file) is consulted only after the gate passes. -/
def file_contains_sized (diskSize : Nat) (maxSize : Option Nat)
    (content : Except Unit (List (List Char))) (searchText : List Char) :
    Except Unit Bool :=
  if exceedsLimit diskSize maxSize then .ok false
  else content.map (fun lines => file_contains lines searchText)

/-- `file_snippet_case_insensitive` with the size gate. -/
def file_snippet_sized (diskSize : Nat) (maxSize : Option Nat)
    (content : Except Unit (List (List Char))) (searchText : List Char)
    (snippetChars : Nat) : Except Unit (Option (List Char)) :=
  if exceedsLimit diskSize maxSize then .ok none
  else content.map (fun lines => file_snippet lines searchText snippetChars)

/-- `extract_assets_from_prproj` with the size gate; the content source
yields the parsed event stream. -/
def extract_assets_sized (diskSize : Nat) (maxSize : Option Nat)
    (content : Except Unit (List RawEvent)) : Except Unit (List (List Char)) :=
  if exceedsLimit diskSize maxSize then .ok []
  else content.map extract_assets_events

/-- C3: a file whose on-disk size strictly exceeds the threshold yields the
no-result value in all three modes without the content source ever being
consulted — the content is universally quantified, including a failing
source — and without an error. -/
theorem size_gate_skips_without_read (diskSize m : Nat)
    (contentL contentS : Except Unit (List (List Char)))
    (contentX : Except Unit (List RawEvent))
    (searchText : List Char) (snippetChars : Nat)
    (h : m < diskSize) :
    file_contains_sized diskSize (some m) contentL searchText = .ok false ∧
    file_snippet_sized diskSize (some m) contentS searchText snippetChars = .ok none ∧
    extract_assets_sized diskSize (some m) contentX = .ok [] := by
  have hx : exceedsLimit diskSize (some m) = true := by
    simp [exceedsLimit, h]
  refine ⟨?_, ?_, ?_⟩ <;>
    simp [file_contains_sized, file_snippet_sized, extract_assets_sized, hx]

/-- Witness for C3: a file one byte over a 100-byte limit, with a content
source that would fail if it were ever read. -/
theorem size_gate_skips_without_read_witness :
    file_contains_sized 101 (some 100) (.error ()) (toL "x") = .ok false ∧
    file_snippet_sized 101 (some 100) (.error ()) (toL "x") 120 = .ok none ∧
    extract_assets_sized 101 (some 100) (.error ()) = .ok [] :=
  size_gate_skips_without_read 101 100 (.error ()) (.error ()) (.error ())
    (toL "x") 120 (by decide)

-- Best-effort behaviour on malformed XML (C5) ---------------------------------

theorem runRaw_stops_at_error (rest : List RawEvent) :
    ∀ (xs : List XmlEvent) (st : ExtractState),
      runRaw st (xs.map RawEvent.ev ++ RawEvent.parseErr :: rest) =
        runRaw st (xs.map RawEvent.ev) := by
  intro xs
  induction xs with
  | nil => intro st; rfl
  | cons e es ih =>
    intro st
    simp only [List.map_cons, List.cons_append, runRaw]
    exact ih _

/-- C5: an unrecoverable parse error after the well-formed prefix `pre`
ends the loop; whatever garbage follows is ignored and the assets
accumulated so far are returned, sorted, as a success (`Ok`) — exactly the
result of the clean stream `pre`. -/
theorem extract_best_effort_on_parse_error (pre : List XmlEvent)
    (rest : List RawEvent) (diskSize : Nat) :
    extract_assets_sized diskSize none
        (.ok (pre.map RawEvent.ev ++ RawEvent.parseErr :: rest)) =
      .ok (extract_assets_events (pre.map RawEvent.ev)) := by
  simp [extract_assets_sized, exceedsLimit, extract_assets_events,
    Except.map, runRaw_stops_at_error]

-- Normalization end-to-end scenarios (C8) -------------------------------------

/-- C8: normalization converts slashes, strips the `file:///` prefix and
deduplicates: `<Clip><FilePath>C:/Media/clip1.mp4</FilePath></Clip>` yields
exactly `C:\Media\clip1.mp4`, and a twice-referenced
`absolutePath="file:///D:/assets/logo.PNG"` yields `D:\assets\logo.PNG`
exactly once. -/
theorem extract_assets_normalization_scenarios :
    extract_assets_events
        [.ev (.start (toL "Clip") []), .ev (.start (toL "FilePath") []),
         .ev (.text (toL "C:/Media/clip1.mp4")), .ev .endTag, .ev .endTag] =
      [toL "C:\\Media\\clip1.mp4"] ∧
    extract_assets_events
        [.ev (.emptyTag (toL "Clip")
            [(toL "absolutePath", toL "file:///D:/assets/logo.PNG")]),
         .ev (.emptyTag (toL "Clip")
            [(toL "absolutePath", toL "file:///D:/assets/logo.PNG")])] =
      [toL "D:\\assets\\logo.PNG"] := by
  exact ⟨by decide, by decide⟩

-- Transparent decoder (C7) -----------------------------------------------------

/-- The two-byte gzip magic number. -/
def gzipMagic : List Nat := [0x1F, 0x8B]

/-- The peek-and-rewind dispatch (src/main.rs lines 92-102, 153-163,
257-267): read the first two bytes, rewind, and wrap the whole stream in
the gzip decoder `gunzip` exactly when two bytes were read and they equal
the magic number; otherwise pass the raw bytes through unchanged.
`gunzip` (the flate2 `GzDecoder`) is an external dependency and is taken as
a parameter. -/
def chooseStream (gunzip : List Nat → List Nat) (bytes : List Nat) : List Nat :=
  if 2 ≤ bytes.length ∧ bytes.take 2 = gzipMagic then gunzip bytes else bytes

/-- The contains pipeline from raw file bytes: dispatch on the magic, then
split the decoded byte stream into UTF-8 lines (`decodeLines`, modelling
`BufReader::lines`, also an external dependency) and run the matcher. -/
def containsPipeline (gunzip : List Nat → List Nat)
    (decodeLines : List Nat → List (List Char)) (bytes : List Nat)
    (searchText : List Char) : Bool :=
  file_contains (decodeLines (chooseStream gunzip bytes)) searchText

/-- C7: the stream is gzip-wrapped exactly when the first two bytes are
`0x1F 0x8B` (otherwise the raw bytes pass through unchanged), and a
gzip-compressed file whose decompressed lines are `foo BA` and `R baz`
makes `contains("bar")` return true. -/
theorem choose_stream_magic_dispatch (gunzip : List Nat → List Nat)
    (decodeLines : List Nat → List (List Char)) (bytes : List Nat) :
    (2 ≤ bytes.length ∧ bytes.take 2 = gzipMagic →
      chooseStream gunzip bytes = gunzip bytes) ∧
    (¬ (2 ≤ bytes.length ∧ bytes.take 2 = gzipMagic) →
      chooseStream gunzip bytes = bytes) ∧
    (2 ≤ bytes.length → bytes.take 2 = gzipMagic →
      decodeLines (gunzip bytes) = [toL "foo BA", toL "R baz"] →
      containsPipeline gunzip decodeLines bytes (toL "bar") = true) := by
  refine ⟨fun h => if_pos h, fun h => if_neg h, fun h1 h2 h3 => ?_⟩
  rw [containsPipeline, chooseStream, if_pos ⟨h1, h2⟩, h3]
  decide

/-- Witness for C7 at a concrete gzip source. -/
theorem choose_stream_magic_dispatch_witness :
    containsPipeline (fun _ => [102, 111, 111])
      (fun _ => [toL "foo BA", toL "R baz"]) [0x1F, 0x8B, 0] (toL "bar") = true :=
  (choose_stream_magic_dispatch (fun _ => [102, 111, 111])
    (fun _ => [toL "foo BA", toL "R baz"]) [0x1F, 0x8B, 0]).2.2
    (by decide) (by decide) rfl

-- Upstream search-term resolution (C9) ----------------------------------------

/-- Outcome of the dispatcher's search-term resolution
(src/main.rs lines 384-417). -/
inductive ResolveOutcome where
  | exitErr
  | run (searchTextOpt : Option (List Char)) (required : Option (List Char))
deriving DecidableEq

/-- The search-term resolution of `main` (src/main.rs lines 384-417):
CLI argument, else config; when absent and not in list-assets mode, prompt
interactively (`promptLine = none` models a stdin read error) and reject an
empty trimmed reply; `required` is the term handed to the matcher in
containment/snippet modes. -/
def resolve_search_text (cli cfg : Option (List Char)) (listAssets : Bool)
    (promptLine : Option (List Char)) : ResolveOutcome :=
  let st0 := match cli with | some s => some s | none => cfg
  match st0 with
  | none =>
    if listAssets then .run none none
    else
      match promptLine with
      | none => .exitErr
      | some input =>
        let trimmed := trim input
        if trimmed = [] then .exitErr
        else .run (some trimmed) (some trimmed)
  | some s => .run (some s) (if listAssets then none else some s)

/-- C9 counterexample: the claim that the matcher is never handed an empty
term fails — an empty search term supplied on the CLI is passed through to
containment/snippet mode unvalidated. -/
theorem empty_search_text_reaches_matcher :
    ¬ (∀ (cli cfg : Option (List Char)) (promptLine : Option (List Char))
        (st : List Char),
        resolve_search_text cli cfg false promptLine =
          .run (some st) (some st) → st ≠ []) := by
  intro h
  exact h (some []) none none [] (by decide) rfl

/-- C9 (amended): only the interactive-prompt path validates the term — a
term obtained from the prompt is trimmed and non-empty — while a term
supplied via CLI or config reaches the matcher unvalidated and may be
empty. -/
theorem prompt_search_text_nonempty (input : List Char)
    (st req : Option (List Char))
    (h : resolve_search_text none none false (some input) = .run st req) :
    st = some (trim input) ∧ req = some (trim input) ∧ trim input ≠ [] := by
  by_cases he : trim input = []
  · rw [resolve_search_text] at h
    simp [he] at h
  · rw [resolve_search_text] at h
    simp only [he, if_neg he] at h
    cases h
    exact ⟨rfl, rfl, he⟩

/-- Witness for the amended C9. -/
theorem prompt_search_text_nonempty_witness :
    (some (trim (toL " bar ")) : Option (List Char)) = some (trim (toL " bar ")) ∧
    (some (trim (toL " bar ")) : Option (List Char)) = some (trim (toL " bar ")) ∧
    trim (toL " bar ") ≠ [] := by
  have h := prompt_search_text_nonempty (toL " bar ")
    (some (trim (toL " bar "))) (some (trim (toL " bar "))) (by decide)
  exact ⟨h.1 ▸ rfl, h.2.1 ▸ rfl, h.2.2⟩

-- Dedup/sort characterization of the extractor (C6) ----------------------------

/-- Evolution of the `want_text` flag across one event. -/
def nextWT (wt : Bool) : XmlEvent → Bool
  | .start name _ => if is_path_name name then true else wt
  | .emptyTag _ _ => false
  | .text _ => wt
  | .endTag => false
  | .other => wt

/-- The final `want_text` value of the loop. -/
def finalWT (wt : Bool) : List RawEvent → Bool
  | [] => wt
  | .parseErr :: _ => wt
  | .ev e :: rest => finalWT (nextWT wt e) rest

/-- The raw values of path-named attributes, in iteration order. -/
def candChunk (attrs : List (List Char × List Char)) : List (List Char) :=
  attrs.filterMap (fun a => if is_path_name a.1 then some a.2 else none)

/-- The raw candidate values one event contributes. -/
def candsOfEvent (wt : Bool) : XmlEvent → List (List Char)
  | .start _ attrs => candChunk attrs
  | .emptyTag _ attrs => candChunk attrs
  | .text s => if wt then [s] else []
  | .endTag => []
  | .other => []

/-- All raw candidate values the loop examines, in order. -/
def candLoop (wt : Bool) : List RawEvent → List (List Char)
  | [] => []
  | .parseErr :: _ => []
  | .ev e :: rest => candsOfEvent wt e ++ candLoop (nextWT wt e) rest

/-- Normalization plus the extension allow-list filter applied to one raw
candidate value. -/
def normCand (v : List Char) : Option (List Char) :=
  let n := normalize_asset_path v
  match extension n with
  | some e => if asciiLowerStr e ∈ asset_exts then some n else none
  | none => none

def normCands (l : List (List Char)) : List (List Char) := l.filterMap normCand

/-- The keys a list of assets inserts into `seen`, most recent first. -/
def keysOf (l : List (List Char)) : List (List Char) := (l.map lowerStr).reverse

/-- First-occurrence deduplication by case-folded key, starting from an
already-seen key set. -/
def dedupFrom (seen : List (List Char)) : List (List Char) → List (List Char)
  | [] => []
  | x :: xs =>
    if lowerStr x ∈ seen then dedupFrom seen xs
    else x :: dedupFrom (lowerStr x :: seen) xs

theorem keysOf_append (l₁ l₂ : List (List Char)) :
    keysOf (l₁ ++ l₂) = keysOf l₂ ++ keysOf l₁ := by
  simp [keysOf]

theorem dedupFrom_append (xs : List (List Char)) :
    ∀ (seen ys : List (List Char)),
      dedupFrom seen (xs ++ ys) =
        dedupFrom seen xs ++ dedupFrom (keysOf (dedupFrom seen xs) ++ seen) ys := by
  induction xs with
  | nil => intro seen ys; simp [dedupFrom, keysOf]
  | cons x xs ih =>
    intro seen ys
    by_cases hk : lowerStr x ∈ seen
    · simp only [List.cons_append, dedupFrom, if_pos hk]
      exact ih seen ys
    · simp only [List.cons_append, dedupFrom, if_neg hk, List.append_eq]
      rw [ih (lowerStr x :: seen) ys]
      have hkeys : keysOf (x :: dedupFrom (lowerStr x :: seen) xs) ++ seen =
          keysOf (dedupFrom (lowerStr x :: seen) xs) ++ (lowerStr x :: seen) := by
        show keysOf ([x] ++ dedupFrom (lowerStr x :: seen) xs) ++ seen = _
        rw [keysOf_append, List.append_assoc]
        rfl
      rw [← hkeys]

theorem dedupFrom_keys_fresh (l : List (List Char)) :
    ∀ (seen : List (List Char)) (a : List Char),
      a ∈ dedupFrom seen l → lowerStr a ∉ seen := by
  induction l with
  | nil => intro seen a ha; simp [dedupFrom] at ha
  | cons x xs ih =>
    intro seen a ha
    by_cases hk : lowerStr x ∈ seen
    · rw [dedupFrom, if_pos hk] at ha
      exact ih seen a ha
    · rw [dedupFrom, if_neg hk] at ha
      rcases List.mem_cons.mp ha with h | h
      · subst h; exact hk
      · intro hc
        exact (ih (lowerStr x :: seen) a h) (List.mem_cons_of_mem _ hc)

theorem dedupFrom_pairwise (l : List (List Char)) :
    ∀ seen : List (List Char),
      (dedupFrom seen l).Pairwise (fun a b => lowerStr a ≠ lowerStr b) := by
  induction l with
  | nil => intro seen; simp [dedupFrom]
  | cons x xs ih =>
    intro seen
    by_cases hk : lowerStr x ∈ seen
    · rw [dedupFrom, if_pos hk]; exact ih seen
    · rw [dedupFrom, if_neg hk]
      refine List.Pairwise.cons ?_ (ih (lowerStr x :: seen))
      intro a ha hc
      exact (dedupFrom_keys_fresh xs (lowerStr x :: seen) a ha)
        (by rw [← hc]; exact List.mem_cons_self _ _)

theorem dedupFrom_find? (l : List (List Char)) :
    ∀ (seen : List (List Char)) (a : List Char),
      a ∈ dedupFrom seen l →
      l.find? (fun c => decide (lowerStr c = lowerStr a)) = some a := by
  induction l with
  | nil => intro seen a ha; simp [dedupFrom] at ha
  | cons x xs ih =>
    intro seen a ha
    by_cases hk : lowerStr x ∈ seen
    · rw [dedupFrom, if_pos hk] at ha
      have hfresh := dedupFrom_keys_fresh xs seen a ha
      have hne : ¬ lowerStr x = lowerStr a := fun he => hfresh (he ▸ hk)
      rw [List.find?_cons_of_neg _ (by simpa using hne)]
      exact ih seen a ha
    · rw [dedupFrom, if_neg hk] at ha
      rcases List.mem_cons.mp ha with h | h
      · subst h
        rw [List.find?_cons_of_pos _ (by simp)]
      · have hfresh := dedupFrom_keys_fresh xs (lowerStr x :: seen) a h
        have hne : ¬ lowerStr x = lowerStr a := fun he =>
          hfresh (he ▸ List.mem_cons_self _ _)
        rw [List.find?_cons_of_neg _ (by simpa using hne)]
        exact ih (lowerStr x :: seen) a h

theorem normCands_append (x y : List (List Char)) :
    normCands (x ++ y) = normCands x ++ normCands y := by
  simp [normCands, List.filterMap_append]

theorem considerCandidate_char (st : ExtractState) (v : List Char) :
    considerCandidate st v =
      ⟨st.wantText, keysOf (dedupFrom st.seen (normCands [v])) ++ st.seen,
        st.assets ++ dedupFrom st.seen (normCands [v])⟩ := by
  obtain ⟨wt, seen, assets⟩ := st
  simp only [considerCandidate, normCands, List.filterMap, normCand]
  cases hx : extension (normalize_asset_path v) with
  | none => simp [dedupFrom, keysOf]
  | some e =>
    by_cases he : asciiLowerStr e ∈ asset_exts
    · simp only [if_pos he]
      by_cases hk : lowerStr (normalize_asset_path v) ∈ seen
      · rw [if_neg (by simp [hk])]
        simp [dedupFrom, hk, keysOf]
      · rw [if_pos ⟨he, hk⟩]
        simp [dedupFrom, hk, keysOf]
    · simp [if_neg he, he, dedupFrom, keysOf]

theorem processAttrs_char (attrs : List (List Char × List Char)) :
    ∀ st : ExtractState,
      processAttrs st attrs =
        ⟨st.wantText, keysOf (dedupFrom st.seen (normCands (candChunk attrs))) ++ st.seen,
          st.assets ++ dedupFrom st.seen (normCands (candChunk attrs))⟩ := by
  induction attrs with
  | nil =>
    intro st
    obtain ⟨wt, seen, assets⟩ := st
    simp [processAttrs, candChunk, normCands, dedupFrom, keysOf]
  | cons a rest ih =>
    intro st
    by_cases hp : is_path_name a.1 = true
    · rw [processAttrs, if_pos hp, ih (considerCandidate st a.2),
        considerCandidate_char]
      have hchunk : candChunk (a :: rest) = a.2 :: candChunk rest := by
        simp [candChunk, List.filterMap_cons, hp]
      rw [hchunk, show a.2 :: candChunk rest = [a.2] ++ candChunk rest from rfl,
        normCands_append, dedupFrom_append, keysOf_append, List.append_assoc,
        List.append_assoc]
    · rw [processAttrs, if_neg hp, ih st]
      have hchunk : candChunk (a :: rest) = candChunk rest := by
        simp [candChunk, List.filterMap_cons, hp]
      rw [hchunk]

theorem processEvent_char (st : ExtractState) (e : XmlEvent) :
    processEvent st e =
      ⟨nextWT st.wantText e,
        keysOf (dedupFrom st.seen (normCands (candsOfEvent st.wantText e))) ++ st.seen,
        st.assets ++ dedupFrom st.seen (normCands (candsOfEvent st.wantText e))⟩ := by
  obtain ⟨wt, seen, assets⟩ := st
  cases e with
  | start name attrs =>
    by_cases hp : is_path_name name = true
    · simp only [processEvent, if_pos hp]
      rw [processAttrs_char]
      simp [nextWT, candsOfEvent, hp]
    · simp only [processEvent, if_neg hp]
      rw [processAttrs_char]
      simp [nextWT, candsOfEvent, hp]
  | emptyTag name attrs =>
    simp only [processEvent]
    rw [processAttrs_char]
    simp [nextWT, candsOfEvent]
  | text s =>
    by_cases hw : wt
    · simp only [processEvent, hw, if_pos trivial]
      rw [considerCandidate_char]
      simp [nextWT, candsOfEvent, hw]
    · simp only [processEvent]
      rw [if_neg (by simpa using hw)]
      simp [nextWT, candsOfEvent, hw, normCands, dedupFrom, keysOf]
  | endTag => simp [processEvent, nextWT, candsOfEvent, normCands, dedupFrom, keysOf]
  | other => simp [processEvent, nextWT, candsOfEvent, normCands, dedupFrom, keysOf]

theorem runRaw_char (events : List RawEvent) :
    ∀ st : ExtractState,
      runRaw st events =
        ⟨finalWT st.wantText events,
          keysOf (dedupFrom st.seen (normCands (candLoop st.wantText events))) ++ st.seen,
          st.assets ++ dedupFrom st.seen (normCands (candLoop st.wantText events))⟩ := by
  induction events with
  | nil =>
    intro st
    obtain ⟨wt, seen, assets⟩ := st
    simp [runRaw, finalWT, candLoop, normCands, dedupFrom, keysOf]
  | cons ev rest ih =>
    intro st
    cases ev with
    | parseErr =>
      obtain ⟨wt, seen, assets⟩ := st
      simp [runRaw, finalWT, candLoop, normCands, dedupFrom, keysOf]
    | ev e =>
      rw [runRaw, ih (processEvent st e), processEvent_char]
      simp only [candLoop, finalWT]
      rw [normCands_append, dedupFrom_append, keysOf_append, List.append_assoc,
        List.append_assoc]

/-- The extractor result is the sorted first-occurrence deduplication of
the normalized, extension-filtered candidate stream. -/
theorem extract_assets_events_eq (events : List RawEvent) :
    extract_assets_events events =
      List.insertionSort (fun a b => lexLe a b = true)
        (dedupFrom [] (normCands (candLoop false events))) := by
  rw [extract_assets_events, runRaw_char]
  simp [initialExtractState]

theorem lexLe_total (a : List Char) : ∀ b, lexLe a b = true ∨ lexLe b a = true := by
  induction a with
  | nil => intro b; left; rfl
  | cons x xs ih =>
    intro b
    cases b with
    | nil => right; rfl
    | cons y ys =>
      rcases lt_trichotomy x y with h | h | h
      · left; simp [lexLe, h]
      · subst h
        rcases ih ys with h2 | h2
        · left; simp [lexLe, h2]
        · right; simp [lexLe, h2]
      · right; simp [lexLe, h]

theorem lexLe_trans (a : List Char) :
    ∀ b c, lexLe a b = true → lexLe b c = true → lexLe a c = true := by
  induction a with
  | nil => intro b c _ _; rfl
  | cons x xs ih =>
    intro b c hab hbc
    cases b with
    | nil => simp [lexLe] at hab
    | cons y ys =>
      cases c with
      | nil => simp [lexLe] at hbc
      | cons z zs =>
        simp only [lexLe] at hab hbc ⊢
        by_cases hxy : x < y
        · by_cases hyz : y < z
          · simp [hxy.trans hyz]
          · by_cases hzy : z < y
            · simp [hyz, hzy] at hbc
            · have hyzeq : y = z := le_antisymm (not_lt.mp hzy) (not_lt.mp hyz)
              subst hyzeq
              simp [hxy]
        · by_cases hyx : y < x
          · simp [hxy, hyx] at hab
          · have hxyeq : x = y := le_antisymm (not_lt.mp hyx) (not_lt.mp hxy)
            subst hxyeq
            rw [if_neg hxy, if_neg hyx] at hab
            by_cases hyz : x < z
            · simp [hyz]
            · by_cases hzy : z < x
              · simp [hyz, hzy] at hbc
              · have hyzeq : x = z := le_antisymm (not_lt.mp hzy) (not_lt.mp hyz)
                subst hyzeq
                rw [if_neg hyz, if_neg hzy] at hbc ⊢
                exact ih ys zs hab hbc

instance : IsTotal (List Char) (fun a b => lexLe a b = true) := ⟨lexLe_total⟩

instance : IsTrans (List Char) (fun a b => lexLe a b = true) :=
  ⟨fun a b c => lexLe_trans a b c⟩

/-- C6: every extractor result is lexicographically sorted, no two of its
entries share a case-folded normalized path, and each entry is the first
candidate (in parse order, after normalization and extension filtering)
bearing its case-folded path. -/
theorem extract_assets_sorted_dedup_first (events : List RawEvent) :
    (extract_assets_events events).Sorted (fun a b => lexLe a b = true) ∧
    (extract_assets_events events).Pairwise (fun a b => lowerStr a ≠ lowerStr b) ∧
    (∀ a ∈ extract_assets_events events,
      (normCands (candLoop false events)).find?
          (fun c => decide (lowerStr c = lowerStr a)) = some a) := by
  have hsym : Symmetric (fun a b : List Char => lowerStr a ≠ lowerStr b) :=
    fun a b h he => h he.symm
  rw [extract_assets_events_eq]
  set D := dedupFrom [] (normCands (candLoop false events)) with hD
  have hperm := List.perm_insertionSort (fun a b => lexLe a b = true) D
  refine ⟨List.sorted_insertionSort _ _, ?_, ?_⟩
  · exact (hperm.pairwise_iff (fun hxy => hsym hxy)).mpr (dedupFrom_pairwise _ [])
  · intro a ha
    exact dedupFrom_find? _ [] a (hperm.mem_iff.mp ha)

/-- Witness for C6: on a stream with two differently-cased references,
the kept entry is the first occurrence. -/
theorem extract_assets_sorted_dedup_first_witness :
    (normCands (candLoop false
        [.ev (.start (toL "FilePath") []), .ev (.text (toL "X:/A/Logo.PNG")),
         .ev .endTag, .ev (.start (toL "FilePath") []),
         .ev (.text (toL "x:/a/logo.png")), .ev .endTag])).find?
        (fun c => decide (lowerStr c = lowerStr (toL "X:\\A\\Logo.PNG"))) =
      some (toL "X:\\A\\Logo.PNG") :=
  (extract_assets_sorted_dedup_first
    [.ev (.start (toL "FilePath") []), .ev (.text (toL "X:/A/Logo.PNG")),
     .ev .endTag, .ev (.start (toL "FilePath") []),
     .ev (.text (toL "x:/a/logo.png")), .ev .endTag]).2.2
    (toL "X:\\A\\Logo.PNG") (by decide)

-- Agreement of contains and snippet modes (C10) --------------------------------

theorem char_le_iff_toNat (a b : Char) : a ≤ b ↔ a.toNat ≤ b.toNat := Iff.rfl

theorem char_toNat_ofNat_lt (n : Nat) (h : n < 0xD800) :
    (Char.ofNat n).toNat = n := by
  rw [Char.ofNat, dif_pos (Or.inl h)]
  rfl

theorem utf8Size_eq_one_of_ascii (c : Char) (h : c.toNat < 128) :
    c.utf8Size = 1 := by
  have hle : c.val ≤ UInt32.ofNatCore 0x7F (by decide) := by
    have h2 : c.toNat ≤ 127 := by omega
    exact h2
  simp only [Char.utf8Size]
  rw [if_pos hle]

theorem rustLowerChar_eq_ascii (c : Char) (h : c.toNat < 128) :
    rustLowerChar c = asciiLowerChar c := by
  rw [rustLowerChar, asciiLowerChar]
  by_cases h1 : 'A' ≤ c ∧ c ≤ 'Z'
  · rw [if_pos h1, if_pos h1]
  · rw [if_neg h1, if_neg h1, if_neg (by omega)]

theorem lowerStr_eq_ascii (s : List Char) (h : ∀ c ∈ s, c.toNat < 128) :
    lowerStr s = asciiLowerStr s :=
  List.map_congr_left (fun c hc => rustLowerChar_eq_ascii c (h c hc))

theorem utf8Size_asciiLowerChar (c : Char) :
    (asciiLowerChar c).utf8Size = c.utf8Size := by
  rw [asciiLowerChar]
  by_cases h1 : 'A' ≤ c ∧ c ≤ 'Z'
  · have hA : (65 : Nat) ≤ c.toNat := by
      have := (char_le_iff_toNat 'A' c).mp h1.1
      simpa using this
    have hZ : c.toNat ≤ 90 := by
      have := (char_le_iff_toNat c 'Z').mp h1.2
      simpa using this
    rw [if_pos h1, utf8Size_eq_one_of_ascii c (by omega),
      utf8Size_eq_one_of_ascii _ (by rw [char_toNat_ofNat_lt _ (by omega)]; omega)]
  · rw [if_neg h1]

theorem utf8Len_asciiLowerStr (s : List Char) :
    utf8Len (asciiLowerStr s) = utf8Len s := by
  induction s with
  | nil => rfl
  | cons c cs ih =>
    simp only [asciiLowerStr, List.map_cons, utf8Len, List.sum_cons] at *
    rw [utf8Size_asciiLowerChar]
    omega

/-- On all-ASCII inputs the two loops test the same lowered texts with the
same carry-over, so containment answers `true` exactly when snippet
extraction finds a match. -/
theorem contains_snippet_lockstep (needle : List Char)
    (hna : ∀ c ∈ needle, c.toNat < 128) (half : Nat) :
    ∀ (lines : List (List Char)) (o : List Char),
      (∀ l ∈ lines, ∀ c ∈ l, c.toNat < 128) → (∀ c ∈ o, c.toNat < 128) →
      (containsLoop (lowerStr needle) (utf8Len needle) o lines = true ↔
        (snippetLoop (asciiLowerStr needle) (utf8Len (asciiLowerStr needle))
            half o lines).isSome = true) := by
  intro lines
  induction lines with
  | nil => intro o _ _; simp [containsLoop, snippetLoop]
  | cons line rest ih =>
    intro o hl ho
    have hca : ∀ c ∈ o ++ line, c.toNat < 128 := by
      intro c hc
      rcases List.mem_append.mp hc with h | h
      · exact ho c h
      · exact hl line (List.mem_cons_self _ _) c h
    have hkey : lowerStr (o ++ line) = asciiLowerStr (o ++ line) :=
      lowerStr_eq_ascii _ hca
    have hkey2 : lowerStr needle = asciiLowerStr needle := lowerStr_eq_ascii _ hna
    have hlen : utf8Len (asciiLowerStr needle) = utf8Len needle :=
      utf8Len_asciiLowerStr needle
    rw [hkey2, hlen] at ih
    simp only [containsLoop, snippetLoop]
    rw [hkey, hkey2, hlen]
    cases hf : findCharIdx (asciiLowerStr (o ++ line)) (asciiLowerStr needle) with
    | some ci => simp
    | none =>
      exact ih (nextOverlap (utf8Len needle) (o ++ line))
        (fun l hl2 => hl l (List.mem_cons_of_mem _ hl2))
        (fun c hc => hca c ((nextOverlap_suffix _ _).subset hc))

/-- C10 (amended): whenever the search term and the file content are pure
ASCII, containment mode and snippet mode agree — `Ok(true)` exactly when a
snippet is produced, `Ok(false)` exactly when none is; on non-ASCII input
they can disagree because containment folds case with `to_lowercase` while
snippet search folds with `to_ascii_lowercase`. -/
theorem contains_iff_snippet_ascii (diskSize : Nat) (maxSize : Option Nat)
    (lines : List (List Char)) (needle : List Char) (snippetChars : Nat)
    (hna : ∀ c ∈ needle, c.toNat < 128)
    (hla : ∀ l ∈ lines, ∀ c ∈ l, c.toNat < 128) :
    (file_contains_sized diskSize maxSize (.ok lines) needle = .ok true ↔
      (∃ s, file_snippet_sized diskSize maxSize (.ok lines) needle snippetChars =
        .ok (some s))) ∧
    (file_contains_sized diskSize maxSize (.ok lines) needle = .ok false ↔
      file_snippet_sized diskSize maxSize (.ok lines) needle snippetChars =
        .ok none) := by
  by_cases hx : exceedsLimit diskSize maxSize = true
  · simp [file_contains_sized, file_snippet_sized, hx]
  · have hmain := contains_snippet_lockstep needle hna
      ((if snippetChars = 0 then 120 else snippetChars) / 2) lines [] hla
      (by intro c hc; cases hc)
    have hcs : file_contains lines needle = true ↔
        (file_snippet lines needle snippetChars).isSome = true := by
      rw [file_contains, file_snippet]
      exact hmain
    simp only [file_contains_sized, file_snippet_sized, if_neg hx, Except.map,
      Except.ok.injEq]
    constructor
    · rw [hcs]
      constructor
      · intro h
        obtain ⟨s, hs⟩ := Option.isSome_iff_exists.mp h
        exact ⟨s, hs⟩
      · rintro ⟨s, hs⟩
        rw [hs]
        rfl
    · constructor
      · intro h
        have : ¬ (file_snippet lines needle snippetChars).isSome = true := by
          rw [← hcs, h]
          simp
        exact Option.not_isSome_iff_eq_none.mp (by simpa using this)
      · intro h
        have : ¬ file_contains lines needle = true := by
          rw [hcs, h]
          simp
        simpa using this

/-- Witness for the amended C10 at a concrete ASCII input. -/
theorem contains_iff_snippet_ascii_witness :
    (file_contains_sized 0 none (.ok [toL "bar"]) (toL "BAR") = .ok true ↔
      (∃ s, file_snippet_sized 0 none (.ok [toL "bar"]) (toL "BAR") 120 =
        .ok (some s))) ∧
    (file_contains_sized 0 none (.ok [toL "bar"]) (toL "BAR") = .ok false ↔
      file_snippet_sized 0 none (.ok [toL "bar"]) (toL "BAR") 120 = .ok none) :=
  contains_iff_snippet_ascii 0 none [toL "bar"] (toL "BAR") 120
    (by decide) (by decide)

/-- C10 counterexample: on the single line `À` with search term `à`,
containment mode (Unicode lowercasing) reports a match while snippet mode
(ASCII lowercasing) reports none. -/
theorem contains_snippet_disagree_nonascii :
    file_contains_sized 0 none (.ok [toL "À"]) (toL "à") = .ok true ∧
    file_snippet_sized 0 none (.ok [toL "À"]) (toL "à") 120 = .ok none := by
  constructor
  · rw [file_contains_sized, if_neg (by decide)]
    simp only [Except.map]
    rw [show file_contains [toL "À"] (toL "à") = true from by decide]
  · rw [file_snippet_sized, if_neg (by decide)]
    simp only [Except.map]
    rw [show file_snippet [toL "À"] (toL "à") 120 = none from by decide]
